import Mathlib

/-!
Shallow embedding of the process-supervisor core of the `sbox` repository
(`internal/process/process.go`, the process manager, and the `runRun` /
`runStop` command handlers of `cmd`).  Pure data is embedded directly;
effects are made explicit:

* the persisted process-table file is a `TableFile` value
  (absent / present-but-corrupt / present-with-a-parsed-table), mirroring
  the three outcomes of `os.ReadFile` + `json.Unmarshal` in `LoadProcesses`;
* the OS liveness probe `IsProcessRunning` (signal 0) is a parameter
  `alive : Int → Bool`;
* signal delivery is recorded as a list of `Sig` values;
* the single file-system write performed by `SaveProcesses` is reified as
  an `FsWrite` value so that the write pattern (in-place `os.WriteFile`
  versus write-temp-then-rename) is observable.
-/

deriving instance DecidableEq for Except

namespace Sbox

/-- Embeds `ProcessInfo` (process.go): one record per tracked daemon.
`startTime` abstracts the `time.Time` timestamp as an integer. -/
structure ProcessInfo where
  pid : Int
  name : String
  command : String
  startTime : Int
  status : String
  logFile : String
  project : String
deriving Repr, DecidableEq

/-- The in-memory process table: the `[]ProcessInfo` slice of process.go. -/
abbrev Table := List ProcessInfo

/-- The three observable states of the `processes.json` file feeding
`LoadProcesses`: missing, present but not valid JSON, or a parsed table. -/
inductive TableFile where
  | absent
  | corrupt
  | valid (ps : Table)
deriving Repr, DecidableEq

/-- Errors surfaced by the process manager, one constructor per distinct
`fmt.Errorf` / `console.Fatal` site used by the embedded functions. -/
inductive PmError where
  | ioError
  | notFound (name : String)
  | notRunning (name status : String)
  | logNotFound (name : String)
deriving Repr, DecidableEq

/-- Embeds `GetProcessFile`: `filepath.Join(pm.SboxDir, "processes.json")`. -/
def GetProcessFile (sboxDir : String) : String :=
  sboxDir ++ "/processes.json"

/-- Embeds `LoadProcesses`: a missing file yields an empty table (not an
error); an unreadable or unparsable file yields an error. -/
def LoadProcesses : TableFile → Except PmError Table
  | .absent => .ok []
  | .corrupt => .error .ioError
  | .valid ps => .ok ps

/-- A single file-system write, the effect alphabet of `SaveProcesses`:
either an in-place `os.WriteFile` on a path (truncate + rewrite), or a
write to a temporary path followed by an atomic rename over the target. -/
inductive FsWrite where
  | writeFile (path : String) (content : Table)
  | tempThenRename (tmpPath path : String) (content : Table)
deriving Repr, DecidableEq

/-- Embeds `SaveProcesses`: `os.WriteFile(pm.GetProcessFile(), data, 0644)`
on the serialized table — a single in-place write of the target path. -/
def SaveProcesses (sboxDir : String) (ps : Table) : FsWrite :=
  .writeFile (GetProcessFile sboxDir) ps

/-- Embeds the body of `AddProcess`: load (treating a load failure as an
empty table), drop every record with the new record's name, append the new
record.  The result is the table handed to `SaveProcesses`. -/
def AddProcess (file : TableFile) (info : ProcessInfo) : Table :=
  let processes : Table :=
    match LoadProcesses file with
    | .error _ => []
    | .ok ps => ps
  (processes.filter fun p => p.name ≠ info.name) ++ [info]

/-- Embeds `RemoveProcess`: a load failure propagates; otherwise every
record with the given name is dropped and the rest saved. -/
def RemoveProcess (file : TableFile) (name : String) : Except PmError Table :=
  (LoadProcesses file).map fun ps => ps.filter fun p => p.name ≠ name

/-- Embeds `GetProcess`: first record with the given name, or a
`process not found` error. -/
def GetProcess (file : TableFile) (name : String) : Except PmError ProcessInfo :=
  match LoadProcesses file with
  | .error e => .error e
  | .ok ps =>
    match ps.find? (fun p => p.name = name) with
    | some p => .ok p
    | none => .error (.notFound name)

/-- Embeds the loop body of `UpdateProcessStatus` for one record: a
`running` record whose PID the probe reports dead becomes `stopped`;
every other record is returned unchanged. -/
def reconcileRec (alive : Int → Bool) (p : ProcessInfo) : ProcessInfo :=
  if p.status = "running" && !alive p.pid then
    { p with status := "stopped" }
  else p

/-- Embeds the `for i := range processes` loop of `UpdateProcessStatus`:
returns the updated table together with the `updated` flag that decides
whether `SaveProcesses` is called. -/
def updateLoop (alive : Int → Bool) : Table → Table × Bool
  | [] => ([], false)
  | p :: rest =>
    let r := updateLoop alive rest
    if p.status = "running" && !alive p.pid then
      ({ p with status := "stopped" } :: r.1, true)
    else
      (p :: r.1, r.2)

/-- Embeds `UpdateProcessStatus`: load, reconcile every record against the
liveness probe, and report (as the Boolean) whether the table was saved. -/
def UpdateProcessStatus (alive : Int → Bool) (file : TableFile) :
    Except PmError (Table × Bool) :=
  (LoadProcesses file).map (updateLoop alive)

/-- A Unix signal delivery, as performed by `StopProcess`. -/
inductive Sig where
  | term (pid : Int)
  | kill (pid : Int)
deriving Repr, DecidableEq

/-- Embeds the status-update loop at the end of `StopProcess`: set the
first record with the given name to `stopped` and `break`. -/
def markStoppedByName (name : String) : Table → Table
  | [] => []
  | p :: rest =>
    if p.name = name then { p with status := "stopped" } :: rest
    else p :: markStoppedByName name rest

/-- Embeds the watcher goroutine's update loop in `StartDaemon`: set the
first record whose stored PID equals the watcher's PID to `stopped` and
`break`. -/
def markStoppedByPid (pid : Int) : Table → Table
  | [] => []
  | p :: rest =>
    if p.pid = pid then { p with status := "stopped" } :: rest
    else p :: markStoppedByPid pid rest

/-- Embeds `StopProcess`.  `termOk` is the environment fact of whether the
`process.Signal(syscall.SIGTERM)` call returns nil (on Unix
`os.FindProcess` never fails, so that branch is dead).  The result pairs
the list of signals actually delivered with either the error returned or
the table handed to `SaveProcesses`.  Note the source consults only the
stored status — it never calls `IsProcessRunning` here — and sends
`SIGKILL` exactly when the `SIGTERM` call itself errored, before the fixed
100 ms sleep that precedes the status rewrite. -/
def StopProcess (file : TableFile) (name : String) (termOk : Bool) :
    List Sig × Except PmError Table :=
  match GetProcess file name with
  | .error e => ([], .error e)
  | .ok info =>
    if info.status ≠ "running" then
      ([], .error (.notRunning name info.status))
    else
      let signals :=
        if termOk then [Sig.term info.pid]
        else [Sig.term info.pid, Sig.kill info.pid]
      let ps : Table :=
        match LoadProcesses file with
        | .error _ => []
        | .ok ps => ps
      (signals, .ok (markStoppedByName name ps))

/-- The table transition performed by one watcher goroutine when the child
it tracks exits (after it closes the log handle): reload and mark the
first record carrying the watcher's PID as `stopped`, then save. -/
def watcherOnExit (file : TableFile) (pid : Int) : Table :=
  let ps : Table :=
    match LoadProcesses file with
    | .error _ => []
    | .ok ps => ps
  markStoppedByPid pid ps

/-- Outcome of the detached branch of `runRun`. -/
inductive RunOutcome where
  | alreadyRunning (pid : Int)
  | started (info : ProcessInfo)
deriving Repr, DecidableEq

/-- Embeds the detached (`--detach`) branch of `runRun` composed with
`StartDaemon`: look up an existing record (a lookup error is discarded —
`existing, _ := pm.GetProcess(name)`); if it is `running` and its PID is
alive, abort with the *already running* fatal error carrying that PID,
spawning nothing and leaving the file untouched.  Otherwise spawn one
child with a fresh PID and register it via `AddProcess`.  The `Nat`
component counts the child processes spawned; the `Table` component is
the table persisted afterwards (the untouched file's content in the
abort case). -/
def runRunDetach (file : TableFile) (alive : Int → Bool)
    (name command : String) (newPid : Int) (now : Int)
    (logFile project : String) : RunOutcome × Nat × Table :=
  let existing : Option ProcessInfo := (GetProcess file name).toOption
  match existing with
  | some e =>
    if e.status = "running" && alive e.pid then
      (.alreadyRunning e.pid, 0,
        match LoadProcesses file with
        | .error _ => []
        | .ok ps => ps)
    else
      let info : ProcessInfo :=
        ⟨newPid, name, command, now, "running", logFile, project⟩
      (.started info, 1, AddProcess file info)
  | none =>
    let info : ProcessInfo :=
      ⟨newPid, name, command, now, "running", logFile, project⟩
    (.started info, 1, AddProcess file info)

/-- Signed 64-bit wrap-around: the value a Go `int` computation takes
(two's-complement, `9223372036854775808 = 2^63`). -/
def wrap64 (x : Int) : Int :=
  (x + 9223372036854775808) % 18446744073709551616 - 9223372036854775808

/-- Embeds `tailLines`: collect all lines, then print from index
`start := len(lines) - n` (clamped below at 0) to the end.  `n` is a Go
`int`, so the subtraction is 64-bit and wraps: at `n = MinInt64` the
difference overflows negative, the clamp fires, and the whole file is
printed. -/
def tailLines (lines : List String) (n : Int) : List String :=
  let start : Int := max (wrap64 ((lines.length : Int) - n)) 0
  lines.drop start.toNat

/-- Embeds `ReadLogs` in its `follow = false` mode: the log file for the
name is either absent (`os.Stat` reports not-exist, yielding the
*no logs found* error) or a list of lines handed to `tailLines`. -/
def ReadLogs (name : String) (log : Option (List String)) (n : Int) :
    Except PmError (List String) :=
  match log with
  | none => .error (.logNotFound name)
  | some lines => .ok (tailLines lines n)

/-- One table-mutating store operation, as issued by the supervisor code
paths: `AddProcess` (registration in `StartDaemon`), `RemoveProcess`,
the reconciliation pass of `UpdateProcessStatus`, the status rewrite of
`StopProcess`, and the watcher's exit update. -/
inductive Op where
  | add (info : ProcessInfo)
  | remove (name : String)
  | reconcile (alive : Int → Bool)
  | stop (name : String)
  | watcherExit (pid : Int)

/-- The table transformation each operation applies between its load and
its save, read off the corresponding source function. -/
def applyOp : Op → Table → Table
  | .add info, ps => (ps.filter fun p => p.name ≠ info.name) ++ [info]
  | .remove name, ps => ps.filter fun p => p.name ≠ name
  | .reconcile alive, ps => (updateLoop alive ps).1
  | .stop name, ps => markStoppedByName name ps
  | .watcherExit pid, ps => markStoppedByPid pid ps

/-- The table produced by a sequence of store operations starting from the
empty table (the content of a fresh `processes.json`). -/
def runOps (ops : List Op) : Table :=
  ops.foldl (fun t op => applyOp op t) []

/-- At most one record per name: the list of names has no duplicate. -/
def UniqueNames (ps : Table) : Prop :=
  (ps.map fun p => p.name).Nodup

/-- Concrete record used to instantiate theorems: the spec's `"web"`
daemon launched with PID 5. -/
def webRec : ProcessInfo :=
  ⟨5, "web", "sleep 5", 0, "running", "logs/web.log", "proj"⟩

/-- A table file holding exactly the `"web"` record. -/
def webFile : TableFile := .valid [webRec]

/-- A liveness probe reporting every PID dead (the tracked child has
exited). -/
def deadProbe : Int → Bool := fun _ => false

/-- A liveness probe reporting every PID alive. -/
def liveProbe : Int → Bool := fun _ => true

section Lemmas

/-- `wrap64` is the identity on the `int64` range. -/
theorem wrap64_eq_self {x : Int} (h1 : -9223372036854775808 ≤ x)
    (h2 : x < 9223372036854775808) : wrap64 x = x := by
  simp only [wrap64]
  omega

/-- `tailLines` computed as a `drop` when the Go subtraction
`len(lines) - n` does not overflow: the clamped start index in `Nat`. -/
theorem tailLines_eq_drop (lines : List String) (n : Int)
    (h1 : -9223372036854775808 ≤ (lines.length : Int) - n)
    (h2 : (lines.length : Int) - n < 9223372036854775808) :
    tailLines lines n = lines.drop ((lines.length : Int) - n).toNat := by
  have h : (max (wrap64 ((lines.length : Int) - n)) 0).toNat
      = ((lines.length : Int) - n).toNat := by
    rw [wrap64_eq_self h1 h2]
    rcases le_or_lt 0 ((lines.length : Int) - n) with h0 | h0
    · rw [max_eq_left h0]
    · rw [max_eq_right h0.le]
      omega
  simp only [tailLines, h]

/-- The updated table of `UpdateProcessStatus` is the pointwise
reconciliation of the loaded table. -/
theorem updateLoop_fst (alive : Int → Bool) (ps : Table) :
    (updateLoop alive ps).1 = ps.map (reconcileRec alive) := by
  induction ps with
  | nil => rfl
  | cons p rest ih =>
    simp only [updateLoop, List.map_cons, reconcileRec]
    split <;> simp [ih]

/-- The `updated` flag of `UpdateProcessStatus` is set exactly when some
record is `running` with a dead PID. -/
theorem updateLoop_snd (alive : Int → Bool) (ps : Table) :
    (updateLoop alive ps).2
      = ps.any fun p => p.status = "running" && !alive p.pid := by
  induction ps with
  | nil => rfl
  | cons p rest ih =>
    simp only [updateLoop, List.any_cons]
    split <;> simp_all

/-- A map that fixes every element of a list fixes the list. -/
theorem map_fix_of_forall {f : ProcessInfo → ProcessInfo} :
    ∀ {l : Table}, (∀ x ∈ l, f x = x) → l.map f = l
  | [], _ => rfl
  | p :: rest, h => by
    rw [List.map_cons, h p (List.mem_cons_self p rest),
      map_fix_of_forall fun x hx => h x (List.mem_cons_of_mem p hx)]

/-- A map that moves some member of a list changes the list. -/
theorem map_ne_self_of_mem {f : ProcessInfo → ProcessInfo} {l : Table}
    {p : ProcessInfo} (hp : p ∈ l) (hfp : f p ≠ p) : l.map f ≠ l := by
  induction l with
  | nil => simp at hp
  | cons q rest ih =>
    rcases List.mem_cons.mp hp with h | h
    · subst h
      intro heq
      rw [List.map_cons] at heq
      exact hfp (List.cons.inj heq).1
    · intro heq
      rw [List.map_cons] at heq
      exact ih h (List.cons.inj heq).2

end Lemmas

/-- C1.  The claim asserts `SaveProcesses` persists atomically by writing
a temporary file and renaming it over `processes.json`.  The source
instead calls `os.WriteFile` on the table path itself — an in-place
truncate-and-rewrite — so a concurrent reader can observe a torn file.
The embedded write effect is always a plain `writeFile` of the table path
and never a `tempThenRename`. -/
theorem saveProcesses_in_place_write :
    ∀ (dir : String) (ps : Table),
      SaveProcesses dir ps = FsWrite.writeFile (GetProcessFile dir) ps
      ∧ ∀ tmp path content,
          SaveProcesses dir ps ≠ FsWrite.tempThenRename tmp path content := by
  intro dir ps
  exact ⟨rfl, fun tmp path content h => FsWrite.noConfusion h⟩

/-- C9.  When `LoadProcesses` fails for a reason other than a missing
file (here: a corrupt table file), `AddProcess` swallows the error,
treats the table as empty, and saves a table holding only the new
record — every previously tracked record is discarded. -/
theorem addProcess_discards_on_load_error :
    LoadProcesses TableFile.corrupt = .error PmError.ioError
    ∧ ∀ info : ProcessInfo, AddProcess TableFile.corrupt info = [info] := by
  refine ⟨rfl, fun info => ?_⟩
  simp [AddProcess, LoadProcesses]

/-- C10 (counterexample).  The claim asserts an empty result for *every*
`n ≤ 0`, but Go `int` arithmetic wraps: at `n = MinInt64` (reachable via
`--lines`) the subtraction `len(lines) - n` overflows to a negative
value, the clamp sets `start = 0`, and the program prints the whole
file — not the empty sequence the claim requires. -/
theorem tail_min_int_whole_file :
    (-9223372036854775808 : Int) ≤ 0
    ∧ ReadLogs "web" (some ["a", "b"]) (-9223372036854775808)
        = .ok ["a", "b"]
    ∧ ReadLogs "web" (some ["a", "b"]) (-9223372036854775808)
        ≠ .ok [] := by
  refine ⟨by decide, by decide, by decide⟩

/-- C10 (amended).  For an existing log file and `n ≤ 0`, the non-follow
`ReadLogs` succeeds and returns no lines whenever the Go `int`
subtraction `len(lines) - n` does not overflow (so for every
`MinInt64 < n ≤ 0` on any log short enough that `len - n < 2^63`): the
start index is then at least `len` and the print loop runs zero
iterations.  At `n = MinInt64` the subtraction wraps negative, the clamp
fires, and the whole file is returned instead. -/
theorem tail_nonpositive_empty (name : String) (lines : List String)
    (n : Int) :
    (n ≤ 0 → (lines.length : Int) - n < 9223372036854775808 →
      ReadLogs name (some lines) n = .ok [])
    ∧ (n = -9223372036854775808 →
      (lines.length : Int) < 9223372036854775808 →
      ReadLogs name (some lines) n = .ok lines) := by
  constructor
  · intro hn hd
    have h1 : -9223372036854775808 ≤ (lines.length : Int) - n := by omega
    simp only [ReadLogs]
    rw [tailLines_eq_drop lines n h1 hd,
      List.drop_eq_nil_of_le (by omega)]
  · intro hn hlen
    subst hn
    have hw : wrap64 ((lines.length : Int) - -9223372036854775808)
        = (lines.length : Int) - 9223372036854775808 := by
      simp only [wrap64]
      omega
    have hmax : (max (wrap64 ((lines.length : Int)
        - -9223372036854775808)) 0).toNat = 0 := by
      rw [hw, max_eq_right (by omega)]
      rfl
    simp only [ReadLogs, tailLines, hmax, List.drop_zero]

/-- Witness for C10 (amended): tailing 0 lines of a two-line log yields
no lines; tailing the same log at `n = MinInt64` yields the whole file. -/
theorem tail_nonpositive_empty_witness :
    ReadLogs "web" (some ["a", "b"]) 0 = .ok []
    ∧ ReadLogs "web" (some ["a", "b"]) (-9223372036854775808)
        = .ok ["a", "b"] := by
  constructor
  · exact (tail_nonpositive_empty "web" ["a", "b"] 0).1
      (by decide) (by decide)
  · exact (tail_nonpositive_empty "web" ["a", "b"]
      (-9223372036854775808)).2 rfl (by decide)

/-- C7.  Non-follow `ReadLogs` returns exactly the last `n` lines in
original order when the log has at least `n` lines (the result is the
length-`n` suffix of the line list), returns all lines when the log has
fewer than `n`, and fails with the log-not-found error when no log file
exists for the name.  The bounds `lines.length < 2^63` and `n < 2^63`
state that the Go slice length and the Go `int` argument lie in the
`int64` range, where the wrapping subtraction is exact. -/
theorem tail_last_n_lines (name : String) (lines : List String) (n : Int) :
    (0 ≤ n → n ≤ (lines.length : Int) →
      (lines.length : Int) < 9223372036854775808 →
      ReadLogs name (some lines) n
          = .ok (lines.drop (lines.length - n.toNat))
      ∧ (tailLines lines n).length = n.toNat
      ∧ lines.take (lines.length - n.toNat) ++ tailLines lines n = lines)
    ∧ ((lines.length : Int) < n → n < 9223372036854775808 →
      ReadLogs name (some lines) n = .ok lines)
    ∧ ReadLogs name none n = .error (.logNotFound name) := by
  refine ⟨fun h0 hn hb => ?_, fun hlt hb => ?_, rfl⟩
  · have hd := tailLines_eq_drop lines n (by omega) (by omega)
    have hidx : ((lines.length : Int) - n).toNat
        = lines.length - n.toNat := by omega
    have hlen : n.toNat ≤ lines.length := by omega
    refine ⟨?_, ?_, ?_⟩
    · simp only [ReadLogs]
      rw [hd, hidx]
    · rw [hd, hidx, List.length_drop]
      omega
    · rw [hd, hidx, List.take_append_drop]
  · have hd := tailLines_eq_drop lines n (by omega) (by omega)
    have hidx : ((lines.length : Int) - n).toNat = 0 := by omega
    simp only [ReadLogs]
    rw [hd, hidx, List.drop_zero]

/-- Witness for C7: a three-line log tailed with `n = 2` yields its last
two lines in order; tailed with `n = 5` yields all three lines; a missing
log file yields the log-not-found error. -/
theorem tail_last_n_lines_witness :
    ReadLogs "web" (some ["a", "b", "c"]) 2 = .ok ["b", "c"]
    ∧ ReadLogs "web" (some ["a", "b", "c"]) 5 = .ok ["a", "b", "c"]
    ∧ ReadLogs "web" (none : Option (List String)) 2
        = .error (.logNotFound "web") := by
  refine ⟨?_, ?_, ?_⟩
  · have h := (tail_last_n_lines "web" ["a", "b", "c"] 2).1
      (by decide) (by decide) (by decide)
    exact h.1
  · exact (tail_last_n_lines "web" ["a", "b", "c"] 5).2.1
      (by decide) (by decide)
  · exact (tail_last_n_lines "web" ["a", "b", "c"] 2).2.2

/-- C3 (counterexample).  The claim's consequence fails for `stop`: with
the `"web"` record stored as `running` while its process is dead (every
probe reports the PID dead), `StopProcess` does *not* observe `stopped` —
it reads the stale stored status without reconciling, delivers `SIGTERM`
to the dead PID, and returns success instead of the not-running error it
would raise had it observed `stopped`. -/
theorem stop_observes_stale_running :
    deadProbe webRec.pid = false
    ∧ (StopProcess webFile "web" true).2
        ≠ .error (.notRunning "web" "stopped")
    ∧ StopProcess webFile "web" true
        = ([Sig.term 5], .ok [{ webRec with status := "stopped" }]) := by
  refine ⟨rfl, ?_, ?_⟩ <;> decide

/-- C3 (amended).  `UpdateProcessStatus` transitions every record that is
`running` with a dead PID to `stopped`, leaves every other record
unchanged, and saves the table exactly when at least one record changed;
consequently `list`/`status` (which run this reconciliation first)
observe `stopped` for an exited process.  `StopProcess`, by contrast,
reads the last persisted status without reconciling. -/
theorem updateProcessStatus_reconciles (alive : Int → Bool)
    (file : TableFile) (ps : Table) (hL : LoadProcesses file = .ok ps) :
    UpdateProcessStatus alive file
        = .ok (ps.map (reconcileRec alive),
            ps.any fun p => p.status = "running" && !alive p.pid)
    ∧ (∀ p ∈ ps, p.status = "running" → alive p.pid = false →
        { p with status := "stopped" } ∈ ps.map (reconcileRec alive))
    ∧ (∀ p : ProcessInfo, ¬(p.status = "running" ∧ alive p.pid = false) →
        reconcileRec alive p = p)
    ∧ ((ps.any fun p => p.status = "running" && !alive p.pid) = true
        ↔ ps.map (reconcileRec alive) ≠ ps) := by
  have hfix : ∀ p : ProcessInfo,
      ¬(p.status = "running" ∧ alive p.pid = false) →
      reconcileRec alive p = p := by
    intro p hc
    rw [reconcileRec, if_neg]
    simp only [Bool.and_eq_true, decide_eq_true_eq, Bool.not_eq_true']
    exact hc
  have hmove : ∀ p : ProcessInfo, p.status = "running" → alive p.pid = false →
      reconcileRec alive p = { p with status := "stopped" } := by
    intro p h1 h2
    rw [reconcileRec, if_pos]
    simp [h1, h2]
  refine ⟨?_, ?_, hfix, ?_⟩
  · simp only [UpdateProcessStatus, hL, Except.map]
    rw [show updateLoop alive ps
        = (ps.map (reconcileRec alive),
            ps.any fun p => p.status = "running" && !alive p.pid) from
      Prod.ext (updateLoop_fst alive ps) (updateLoop_snd alive ps)]
  · intro p hp h1 h2
    exact hmove p h1 h2 ▸ List.mem_map_of_mem (reconcileRec alive) hp
  · constructor
    · intro hany
      rcases List.any_eq_true.mp hany with ⟨p, hp, hc⟩
      simp only [Bool.and_eq_true, decide_eq_true_eq, Bool.not_eq_true'] at hc
      apply map_ne_self_of_mem hp
      rw [hmove p hc.1 hc.2]
      intro heq
      have := congrArg ProcessInfo.status heq
      simp only at this
      rw [hc.1] at this
      exact absurd this (by decide)
    · intro hne
      by_contra hany
      apply hne
      apply map_fix_of_forall
      intro p hp
      apply hfix
      intro hc
      exact hany (List.any_eq_true.mpr
        ⟨p, hp, by simp [hc.1, hc.2]⟩)

/-- Witness for C3 (amended): reconciling the table holding the `running`
`"web"` record against a probe that reports its PID dead yields the
record marked `stopped` and saves the table. -/
theorem updateProcessStatus_reconciles_witness :
    UpdateProcessStatus deadProbe webFile
        = .ok ([{ webRec with status := "stopped" }], true) := by
  have h := (updateProcessStatus_reconciles deadProbe webFile [webRec] rfl).1
  rw [h]
  decide

/-- `find?` on a name predicate returns a record carrying that name. -/
theorem name_of_find (ps : Table) (name : String) (r : ProcessInfo)
    (h : ps.find? (fun p => p.name = name) = some r) : r.name = name := by
  have := List.find?_some h
  simpa using this

/-- Marking the first record with a name `stopped` makes the lookup of
that name return the record with its status rewritten. -/
theorem markStoppedByName_find (name : String) (ps : Table)
    (r : ProcessInfo) (h : ps.find? (fun p => p.name = name) = some r) :
    (markStoppedByName name ps).find? (fun p => p.name = name)
      = some { r with status := "stopped" } := by
  induction ps with
  | nil => simp at h
  | cons p rest ih =>
    by_cases hp : p.name = name
    · rw [List.find?_cons_of_pos _ (by simpa using hp)] at h
      cases h
      simp only [markStoppedByName]
      rw [if_pos hp]
      exact List.find?_cons_of_pos _ (by simpa using hp)
    · rw [List.find?_cons_of_neg _ (by simpa using hp)] at h
      simp only [markStoppedByName]
      rw [if_neg hp, List.find?_cons_of_neg _ (by simpa using hp)]
      exact ih h

/-- C5.  A `stop` on a name whose record's stored status is not
`running` fails with the not-running error carrying that status and
delivers no signal; a `stop` on a name with no record fails with the
not-found error, also delivering no signal. -/
theorem stop_not_running_no_signal (file : TableFile) (ps : Table)
    (name : String) (termOk : Bool) (hL : LoadProcesses file = .ok ps) :
    (∀ r : ProcessInfo, ps.find? (fun p => p.name = name) = some r →
      r.status ≠ "running" →
      StopProcess file name termOk
        = ([], .error (.notRunning name r.status)))
    ∧ (ps.find? (fun p => p.name = name) = none →
      StopProcess file name termOk = ([], .error (.notFound name))) := by
  constructor
  · intro r hf hr
    simp [StopProcess, GetProcess, hL, hf, hr]
  · intro hf
    simp [StopProcess, GetProcess, hL, hf]

/-- The `"web"` record already marked `stopped`. -/
def webStopped : ProcessInfo := { webRec with status := "stopped" }

/-- Witness for C5: stopping the already-`stopped` `"web"` record fails
with the not-running error and delivers no signal; stopping the unknown
name `"api"` fails with the not-found error, also without signals. -/
theorem stop_not_running_no_signal_witness :
    StopProcess (.valid [webStopped]) "web" true
        = ([], .error (.notRunning "web" "stopped"))
    ∧ StopProcess (.valid [webStopped]) "api" true
        = ([], .error (.notFound "api")) := by
  constructor
  · exact (stop_not_running_no_signal (.valid [webStopped]) [webStopped]
      "web" true rfl).1 webStopped (by decide) (by decide)
  · exact (stop_not_running_no_signal (.valid [webStopped]) [webStopped]
      "api" true rfl).2 (by decide)

/-- C6 (counterexample).  The claim says `SIGKILL` is sent if and only if
the process has not exited after the grace period.  In the environment
where the `SIGTERM` delivery call succeeds (`termOk = true`) while the
process survives the grace period (the probe still reports it alive),
the source sends no `SIGKILL` at all: escalation is keyed solely on the
`SIGTERM` call erroring, never on post-grace liveness. -/
theorem stop_no_escalation_on_delivered_term :
    liveProbe webRec.pid = true
    ∧ (StopProcess webFile "web" true).1 = [Sig.term 5]
    ∧ Sig.kill 5 ∉ (StopProcess webFile "web" true).1 := by
  refine ⟨rfl, by decide, by decide⟩

/-- C6 (amended).  For a record whose *stored* status is `running`,
`StopProcess` — without reconciling against the OS first — sends
`SIGTERM`, additionally sends `SIGKILL` exactly when the `SIGTERM`
delivery call itself fails (not after a grace-period liveness check),
then after the fixed 100 ms sleep rewrites the record's status to
`stopped` in every case. -/
theorem stop_signal_behavior (file : TableFile) (ps : Table)
    (name : String) (r : ProcessInfo) (termOk : Bool)
    (hL : LoadProcesses file = .ok ps)
    (hf : ps.find? (fun p => p.name = name) = some r)
    (hr : r.status = "running") :
    StopProcess file name termOk
        = ((if termOk then [Sig.term r.pid]
            else [Sig.term r.pid, Sig.kill r.pid]),
          .ok (markStoppedByName name ps))
    ∧ (Sig.kill r.pid ∈ (StopProcess file name termOk).1 ↔ termOk = false)
    ∧ (markStoppedByName name ps).find? (fun p => p.name = name)
        = some { r with status := "stopped" } := by
  have hmain : StopProcess file name termOk
      = ((if termOk then [Sig.term r.pid]
          else [Sig.term r.pid, Sig.kill r.pid]),
        .ok (markStoppedByName name ps)) := by
    simp [StopProcess, GetProcess, hL, hf, hr]
  refine ⟨hmain, ?_, markStoppedByName_find name ps r hf⟩
  rw [hmain]
  cases termOk <;> simp

/-- Witness for C6 (amended): with a failed `SIGTERM` delivery the
`running` `"web"` record receives `SIGTERM` then `SIGKILL` and is
rewritten to `stopped`. -/
theorem stop_signal_behavior_witness :
    StopProcess webFile "web" false
        = ([Sig.term 5, Sig.kill 5],
          .ok [{ webRec with status := "stopped" }]) := by
  have h := (stop_signal_behavior webFile [webRec] "web" webRec false
    rfl (by decide) rfl).1
  rw [h]
  decide

/-- In a table with pairwise-distinct names, `find?` on the name of a
member returns that member. -/
theorem find_name_of_uniqueNames (ps : Table) (name : String)
    (r : ProcessInfo) (hu : UniqueNames ps) (hr : r ∈ ps)
    (hn : r.name = name) :
    ps.find? (fun p => p.name = name) = some r := by
  induction ps with
  | nil => simp at hr
  | cons p rest ih =>
    have hu' : p.name ∉ rest.map (fun q => q.name)
        ∧ UniqueNames rest := by
      have := hu
      rw [UniqueNames, List.map_cons, List.nodup_cons] at this
      exact this
    rcases List.mem_cons.mp hr with h | h
    · subst h
      exact List.find?_cons_of_pos _ (by simpa using hn)
    · have hp : ¬p.name = name := by
        intro hpn
        exact hu'.1 (hpn ▸ hn ▸ List.mem_map_of_mem (fun q => q.name) h)
      rw [List.find?_cons_of_neg _ (by simpa using hp)]
      exact ih hu'.2 h

/-- In a table with pairwise-distinct names, filtering on the name of a
member yields exactly that member. -/
theorem filter_name_of_uniqueNames (ps : Table) (name : String)
    (r : ProcessInfo) (hu : UniqueNames ps) (hr : r ∈ ps)
    (hn : r.name = name) :
    ps.filter (fun p => p.name = name) = [r] := by
  induction ps with
  | nil => simp at hr
  | cons p rest ih =>
    have hu' : p.name ∉ rest.map (fun q => q.name)
        ∧ UniqueNames rest := by
      have := hu
      rw [UniqueNames, List.map_cons, List.nodup_cons] at this
      exact this
    rcases List.mem_cons.mp hr with h | h
    · subst h
      rw [List.filter_cons_of_pos (by simpa using hn)]
      have hrest : rest.filter (fun p => p.name = name) = [] := by
        rw [List.filter_eq_nil_iff]
        intro q hq hqn
        exact hu'.1 (hn ▸ (by simpa using hqn : q.name = name) ▸
          List.mem_map_of_mem (fun q => q.name) hq)
      rw [hrest]
    · have hp : ¬p.name = name := by
        intro hpn
        exact hu'.1 (hpn ▸ hn ▸ List.mem_map_of_mem (fun q => q.name) h)
      rw [List.filter_cons_of_neg (by simpa using hp)]
      exact ih hu'.2 h

/-- C4.  When the table holds a record for `name` whose stored status is
`running` and whose PID the probe reports alive, the detached `runRun`
aborts with the already-running error carrying that PID, spawns no child
process, leaves the persisted table untouched, and the table keeps
exactly one record for `name`. -/
theorem run_already_running_no_spawn (file : TableFile)
    (alive : Int → Bool) (ps : Table) (name command : String)
    (r : ProcessInfo) (newPid now : Int) (logFile project : String)
    (hL : LoadProcesses file = .ok ps) (hu : UniqueNames ps)
    (hr : r ∈ ps) (hn : r.name = name) (hs : r.status = "running")
    (ha : alive r.pid = true) :
    runRunDetach file alive name command newPid now logFile project
        = (.alreadyRunning r.pid, 0, ps)
    ∧ ps.filter (fun p => p.name = name) = [r] := by
  have hf := find_name_of_uniqueNames ps name r hu hr hn
  refine ⟨?_, filter_name_of_uniqueNames ps name r hu hr hn⟩
  simp [runRunDetach, GetProcess, hL, hf, hs, ha, Except.toOption]

/-- Witness for C4: starting `"web"` while its `running` record's PID 5
is alive aborts with the already-running error carrying PID 5, spawns
nothing, and the table still holds exactly the one `"web"` record. -/
theorem run_already_running_no_spawn_witness :
    runRunDetach webFile liveProbe "web" "sleep 5" 9 1 "lf" "proj"
        = (.alreadyRunning 5, 0, [webRec])
    ∧ [webRec].filter (fun p => p.name = "web") = [webRec] := by
  have h := run_already_running_no_spawn webFile liveProbe [webRec]
    "web" "sleep 5" webRec 9 1 "lf" "proj" rfl
    (by simp [UniqueNames]) (by decide) rfl rfl rfl
  exact h

/-- A record whose PID differs from the watcher's PID survives the
watcher's update unchanged. -/
theorem mem_markStoppedByPid_of_ne (pid : Int) {ps : Table}
    {r : ProcessInfo} (hr : r ∈ ps) (hne : r.pid ≠ pid) :
    r ∈ markStoppedByPid pid ps := by
  induction ps with
  | nil => simp at hr
  | cons p rest ih =>
    rcases List.mem_cons.mp hr with h | h
    · subst h
      simp only [markStoppedByPid]
      rw [if_neg hne]
      exact List.mem_cons_self r (markStoppedByPid pid rest)
    · simp only [markStoppedByPid]
      split
      · exact List.mem_cons_of_mem _ h
      · rcases List.mem_cons.mp hr with h' | _
        · subst h'
          exact List.mem_cons_self r (markStoppedByPid pid rest)
        · exact List.mem_cons_of_mem _ (ih h)

/-- When the watcher's PID identifies a unique record, that record is
rewritten to `stopped` and every other record survives unchanged. -/
theorem markStoppedByPid_unique (pid : Int) {ps : Table}
    {r : ProcessInfo} (hr : r ∈ ps) (hpid : r.pid = pid)
    (huniq : ∀ r' ∈ ps, r'.pid = pid → r' = r) :
    { r with status := "stopped" } ∈ markStoppedByPid pid ps
    ∧ ∀ r' ∈ ps, r' ≠ r → r' ∈ markStoppedByPid pid ps := by
  induction ps with
  | nil => simp at hr
  | cons p rest ih =>
    by_cases hp : p.pid = pid
    · have hpr : p = r := huniq p (List.mem_cons_self p rest) hp
      subst hpr
      simp only [markStoppedByPid]
      rw [if_pos hp]
      refine ⟨List.mem_cons_self _ _, ?_⟩
      intro r' hr' hne
      rcases List.mem_cons.mp hr' with h' | h'
      · exact absurd h' hne
      · exact List.mem_cons_of_mem _ h'
    · have hpr : r ∈ rest := by
        rcases List.mem_cons.mp hr with h | h
        · exact absurd (h ▸ hpid) hp
        · exact h
      have ihres := ih hpr
        (fun r' hr' hp' => huniq r' (List.mem_cons_of_mem p hr') hp')
      simp only [markStoppedByPid]
      rw [if_neg hp]
      refine ⟨List.mem_cons_of_mem _ ihres.1, ?_⟩
      intro r' hr' hne
      rcases List.mem_cons.mp hr' with h' | h'
      · subst h'
        exact List.mem_cons_self r' _
      · exact List.mem_cons_of_mem _ (ihres.2 r' h' hne)

/-- C8.  The watcher's exit handler updates a stored record only when the
record's stored PID equals the PID the watcher tracks: every record with
a different PID — in particular a newer launch that reused the name under
a fresh PID — is left unchanged; and when the watcher's PID still
identifies its record uniquely, exactly that record transitions to
`stopped`. -/
theorem watcher_updates_matching_pid (file : TableFile) (ps : Table)
    (pid : Int) (r : ProcessInfo) (hL : LoadProcesses file = .ok ps)
    (hr : r ∈ ps) :
    (r.pid ≠ pid → r ∈ watcherOnExit file pid)
    ∧ (r.pid = pid → (∀ r' ∈ ps, r'.pid = pid → r' = r) →
        { r with status := "stopped" } ∈ watcherOnExit file pid
        ∧ ∀ r' ∈ ps, r' ≠ r → r' ∈ watcherOnExit file pid) := by
  have hw : watcherOnExit file pid = markStoppedByPid pid ps := by
    simp [watcherOnExit, hL]
  rw [hw]
  exact ⟨fun hne => mem_markStoppedByPid_of_ne pid hr hne,
    fun hpid huniq => markStoppedByPid_unique pid hr hpid huniq⟩

/-- The `"web"` name relaunched under the fresh PID 9. -/
def webReused : ProcessInfo := { webRec with pid := 9 }

/-- Witness for C8: a watcher tracking the old PID 5 leaves the reused
`"web"` record (PID 9) untouched; a watcher whose PID 5 still matches
the stored `"web"` record rewrites exactly it to `stopped`. -/
theorem watcher_updates_matching_pid_witness :
    webReused ∈ watcherOnExit (.valid [webReused]) 5
    ∧ { webRec with status := "stopped" }
        ∈ watcherOnExit (.valid [webRec]) 5 := by
  constructor
  · exact (watcher_updates_matching_pid (.valid [webReused]) [webReused]
      5 webReused rfl (by decide)).1 (by decide)
  · exact ((watcher_updates_matching_pid (.valid [webRec]) [webRec]
      5 webRec rfl (by decide)).2 rfl (by decide)).1

/-- `markStoppedByName` rewrites a status only: names are untouched. -/
theorem names_markStoppedByName (name : String) (ps : Table) :
    (markStoppedByName name ps).map (fun p => p.name)
      = ps.map fun p => p.name := by
  induction ps with
  | nil => rfl
  | cons p rest ih =>
    simp only [markStoppedByName]
    split <;> simp [ih]

/-- `markStoppedByPid` rewrites a status only: names are untouched. -/
theorem names_markStoppedByPid (pid : Int) (ps : Table) :
    (markStoppedByPid pid ps).map (fun p => p.name)
      = ps.map fun p => p.name := by
  induction ps with
  | nil => rfl
  | cons p rest ih =>
    simp only [markStoppedByPid]
    split <;> simp [ih]

/-- Reconciliation rewrites statuses only: names are untouched. -/
theorem names_updateLoop (alive : Int → Bool) (ps : Table) :
    ((updateLoop alive ps).1).map (fun p => p.name)
      = ps.map fun p => p.name := by
  rw [updateLoop_fst, List.map_map]
  apply List.map_congr_left
  intro p _
  simp only [Function.comp_apply, reconcileRec]
  split <;> rfl

/-- Every store operation preserves name uniqueness of the table. -/
theorem uniqueNames_applyOp (op : Op) {ps : Table}
    (h : UniqueNames ps) : UniqueNames (applyOp op ps) := by
  rw [UniqueNames] at h
  cases op with
  | add info =>
    rw [applyOp, UniqueNames, List.map_append, List.nodup_append]
    have hsub : (ps.filter fun p => p.name ≠ info.name).Sublist ps :=
      List.filter_sublist ps
    refine ⟨(hsub.map fun p => p.name).nodup h, by simp, ?_⟩
    intro a ha
    rcases List.mem_map.mp ha with ⟨q, hq, hqa⟩
    have := List.of_mem_filter hq
    simp only [List.map_cons, List.map_nil, List.mem_singleton]
    intro hae
    rw [hae] at hqa
    exact (by simpa using this : q.name ≠ info.name) hqa
  | remove name =>
    rw [applyOp, UniqueNames]
    exact ((List.filter_sublist ps).map fun p => p.name).nodup h
  | reconcile alive =>
    rw [applyOp, UniqueNames, names_updateLoop]
    exact h
  | stop name =>
    rw [applyOp, UniqueNames, names_markStoppedByName]
    exact h
  | watcherExit pid =>
    rw [applyOp, UniqueNames, names_markStoppedByPid]
    exact h

/-- Uniqueness is preserved along any fold of store operations. -/
theorem uniqueNames_foldl (ops : List Op) :
    ∀ t : Table, UniqueNames t →
      UniqueNames (ops.foldl (fun t op => applyOp op t) t) := by
  induction ops with
  | nil => exact fun t h => h
  | cons op rest ih =>
    intro t h
    exact ih (applyOp op t) (uniqueNames_applyOp op h)

/-- C2.  Every table reachable by a sequence of store operations from the
empty table keeps at most one record per name; and registering a record
under an existing name replaces it: afterwards the records carrying that
name are exactly the new record, whatever the previous file contents. -/
theorem table_names_unique :
    (∀ ops : List Op, UniqueNames (runOps ops))
    ∧ ∀ (file : TableFile) (info : ProcessInfo),
        (AddProcess file info).filter (fun p => p.name = info.name)
          = [info] := by
  constructor
  · intro ops
    exact uniqueNames_foldl ops [] (by simp [UniqueNames])
  · intro file info
    rw [AddProcess, List.filter_append]
    have h1 : ∀ ps : Table,
        (ps.filter fun p => p.name ≠ info.name).filter
            (fun p => p.name = info.name) = [] := by
      intro ps
      rw [List.filter_eq_nil_iff]
      intro q hq hqn
      exact (by simpa using List.of_mem_filter hq : q.name ≠ info.name)
        (by simpa using hqn)
    rw [h1]
    simp

end Sbox
